import Mathlib

/-!
Verification of the statistical evaluation core of `gentab`
(`src/gentab/data/dataset.py`), shallowly embedded in Lean 4.

Conventions used throughout this development:
* pandas/numpy tables are modelled column-wise as `List` of columns (or
  row-wise as `List` of rows where the source iterates over rows);
* float arithmetic is modelled by exact arithmetic over `ℚ` (and over `ℝ`
  where the source genuinely needs `sqrt`/`log`);
* a possibly-missing cell (`NaN`) is an `Option` value;
* a fallible pandas operation is a function into `Option`.
-/

namespace Gentab

/-! ### Categorical codec (`compute_categories`, `encode_categories`,
`decode_categories`, lines 267-333 of `dataset.py`)

`compute_categories` stores, for every categorical/binary column of the
training table `X`, `pd.Categorical(col)` - whose `categories` are the
sorted distinct non-null values of that training column (the codebook).

`encode_categories(df)` replaces every categorical/binary column of `df`
by `pd.Categorical(col).codes`, i.e. by the position of each value among
the *sorted distinct values of that very column of `df`* (the stored
training codebook is not consulted); a missing value gets code `-1`.

`decode_categories(df)` replaces each categorical column by
`pd.Categorical.from_codes(col, training codebook)`: a code in
`[0, len)` becomes the codebook value at that position, `-1` becomes a
missing value, and any other code is an error (modelled by `none`).

The `download == "imbalanced"` identity branch bypasses the codec
entirely (such datasets declare no categorical columns); the embedding
covers the codec branch. -/

variable {V : Type} [LinearOrder V]

/-- Codebook of one column: the sorted distinct values, as produced by
`pd.Categorical(col).categories` (`compute_categories`). -/
def codebookOf (col : List V) : List V :=
  col.dedup.insertionSort (· ≤ ·)

/-- `pd.Categorical(col).codes` for a column without missing values:
each value is replaced by its position among the sorted distinct values
of `col` itself (`encode_categories`, line 317). -/
def encodeColumn (col : List V) : List ℤ :=
  col.map (fun v => ((codebookOf col).indexOf v : ℤ))

/-- Encoding as the specification describes it: each value is replaced by
its position in a *fixed* codebook `cb` (claim C2's reading of
`encode_categories`).  Kept separate so it can be compared with
`encodeColumn`, which is what the source actually does. -/
def specEncodeColumn (cb : List V) (col : List V) : List ℤ :=
  col.map (fun v => ((cb.indexOf v : ℕ) : ℤ))

/-- `pd.Categorical.from_codes(codes, cb)` (`decode_categories`,
lines 327-331): `-1` decodes to a missing value, a code in range decodes
to the codebook entry, anything else raises (modelled by `none`). -/
def decodeColumn (cb : List V) (codes : List ℤ) : Option (List (Option V)) :=
  codes.mapM (fun c =>
    if c = -1 then some none
    else if h : 0 ≤ c ∧ c.toNat < cb.length then
      some (some (cb.get ⟨c.toNat, h.2⟩))
    else none)

/-- A mixed-type feature table: the categorical/binary columns and the
continuous columns (`encode_categories` copies the frame and rewrites
only the categorical/binary columns, so the two groups are kept apart;
textual column order is immaterial to every computation modelled here). -/
structure MixedTable (V : Type) where
  catCols : List (List V)
  contCols : List (List ℚ)
  deriving Repr

/-- Table-level `encode_categories` (codec branch): categorical/binary
columns are encoded, continuous columns pass through unchanged. -/
def encodeTable (t : MixedTable V) : List (List ℤ) × List (List ℚ) :=
  (t.catCols.map encodeColumn, t.contCols)

/-- Table-level `decode_categories`: each categorical column is decoded
against its stored training codebook; continuous columns pass through. -/
def decodeTable (cbs : List (List V)) (enc : List (List ℤ) × List (List ℚ)) :
    Option (List (List (Option V))) × List (List ℚ) :=
  ((cbs.zip enc.1).mapM (fun p => decodeColumn p.1 p.2), enc.2)

/-- `pd.Categorical(col).codes` for a column that may contain missing
values: `pd.Categorical` drops `NaN` from the categories and assigns it
the sentinel code `-1` (`encode_categories` applied to a column with
missing entries). -/
def encodeColumnOpt (col : List (Option V)) : List ℤ :=
  let cb := codebookOf (col.filterMap id)
  col.map (fun o => match o with
    | none => -1
    | some v => ((cb.indexOf v : ℕ) : ℤ))

/-- Table-level encoding in the presence of missing values, exactly what
`get_single_encoded_data` (lines 587-597) feeds to the distance/privacy
and distributional-distance engines: no imputation happens, categorical
columns are encoded (missing ↦ `-1`), continuous columns pass through
with their missing values intact. -/
def encodeMixedOpt (cats : List (List (Option V))) (conts : List (List (Option ℚ))) :
    List (List ℤ) × List (List (Option ℚ)) :=
  (cats.map encodeColumnOpt, conts)

/-- The specification's output guarantee for the encoded table (claim
C3): every categorical code is a genuine codebook position, never the
missing-value sentinel `-1`. -/
def specNoMissingCodes (l : List ℤ) : Prop :=
  ∀ c ∈ l, 0 ≤ c

instance (l : List ℤ) : Decidable (specNoMissingCodes l) :=
  List.decidableBAll _ l

/-- `fillNa_cont` (lines 644-648): each missing entry of a continuous
column is replaced by the column's mean (pandas' `mean()` skips missing
entries; if every entry is missing, `mean()` is `NaN` and `fillna(NaN)`
leaves the column unchanged). -/
def fillNa_cont (col : List (Option ℚ)) : List (Option ℚ) :=
  let vals := col.filterMap id
  if vals = [] then col
  else col.map (fun o => some (o.getD (vals.sum / vals.length)))

/-! ### Distance/Privacy engine (`column_entropy`, `compute_distances_hits`
and the derived metrics, lines 698-825 of `dataset.py`)

`get_single_encoded_data` concatenates the encoded feature columns with
the ordinally encoded label column into a fully numeric table; the
distance pass then works on its rows.  A row is a `List ℚ`; `realRows`
and `genRows` are the rows of the encoded real (train) and synthetic
tables.  Which columns are categorical-or-label (and therefore get a
zero threshold in the hit test) is abstracted by a predicate on the
column index. -/

/-- Smallest element of a list (`np.min`, or the first element of
`np.partition(·, 1)`); `d` for the empty list, on which numpy raises. -/
def listMin {α : Type} [LinearOrder α] (d : α) : List α → α
  | [] => d
  | [a] => a
  | a :: b :: t => min a (listMin d (b :: t))

/-- Largest element of a list (`np.max` / `DataFrame.max()`). -/
def listMax {α : Type} [LinearOrder α] (d : α) : List α → α
  | [] => d
  | [a] => a
  | a :: b :: t => max a (listMax d (b :: t))

/-- Sum of squared componentwise differences of two rows. -/
def sqDiffSum (r g : List ℚ) : ℚ :=
  ((List.zipWith (fun a b => a - b) r g).map (fun d => d ^ 2)).sum

/-- `euclidean_distance(source, target)` without weights (line 718):
`np.sqrt(((source - target) ** 2).sum(axis=1))`, for one candidate row. -/
noncomputable def euclidean_distance (r g : List ℚ) : ℝ :=
  Real.sqrt ((sqDiffSum r g : ℚ) : ℝ)

/-- `euclidean_distance(source, target, w)` (lines 720-722):
`np.sqrt((((source - target) / w) ** 2).sum(axis=1))`, for one candidate
row.  The entropy weights are real numbers, so the quotient lives in `ℝ`. -/
noncomputable def euclidean_distance_w (r g : List ℚ) (w : List ℝ) : ℝ :=
  Real.sqrt ((List.zipWith (fun d wi => (((d : ℚ) : ℝ) / wi) ^ 2)
    (List.zipWith (fun a b => a - b) r g) w).sum)

/-- `min_l2_distance(row, real_array)` (lines 725-729): the two smallest
unweighted distances from a synthetic row to the real rows
(`np.partition(distance_array, 1)[0:2]` = the two least order
statistics), followed by the source's conditional swap. -/
noncomputable def min_l2_distance (row : List ℚ) (realRows : List (List ℚ)) : ℝ × ℝ :=
  let d := realRows.map (fun r => euclidean_distance row r)
  let first := listMin 0 d
  let second := listMin 0 (d.erase first)
  if first < second then (first, second) else (second, first)

/-- Column `j` of a row-major table. -/
def colOf (rows : List (List ℚ)) (j : ℕ) : List ℚ :=
  rows.map (fun r => r.getD j 0)

/-- Number of columns of a row-major table. -/
def ncols (rows : List (List ℚ)) : ℕ :=
  (rows.headD []).length

/-- The per-column hit thresholds (lines 744-745):
`thres_percent * (real_data.max() - real_data.min())`, zeroed at the
categorical and label columns (`catIdx`). -/
def thresVec (rows : List (List ℚ)) (tp : ℚ) (catIdx : ℕ → Bool) : List ℚ :=
  (List.range (ncols rows)).map (fun j =>
    if catIdx j then 0
    else tp * (listMax 0 (colOf rows j) - listMin 0 (colOf rows j)))

/-- One row of the hit test (line 753): `(np.abs(row - g) <= thres).all()`. -/
def rowHit (r g : List ℚ) (thres : List ℚ) : Bool :=
  (List.zipWith (fun d t => decide (|d| ≤ t))
    (List.zipWith (fun a b => a - b) r g) thres).all id

/-- `hits.any()` over all synthetic rows (line 761, first component). -/
def hitAny (r : List ℚ) (genRows : List (List ℚ)) (thres : List ℚ) : Bool :=
  genRows.any (fun g => rowHit r g thres)

/-- `np.round` rounds halves to the nearest even integer. -/
def npRound (q : ℚ) : ℤ :=
  let f := ⌊q⌋
  if q - f < 1 / 2 then f
  else if 1 / 2 < q - f then f + 1
  else if Even f then f else f + 1

/-- `np.unique(np.round(column), return_counts=True)` (line 699): the
counts of the distinct rounded values, in sorted value order. -/
def roundedCounts (col : List ℚ) : List ℕ :=
  let r := col.map npRound
  (codebookOf r).map (fun v => r.count v)

/-- `scipy.stats.entropy(counts)`: normalise the counts to a probability
vector and take `-Σ p ln p` (natural logarithm). -/
noncomputable def entropyCounts (cs : List ℕ) : ℝ :=
  -(cs.map (fun c => ((c : ℝ) / (cs.sum : ℕ)) * Real.log ((c : ℝ) / (cs.sum : ℕ)))).sum

/-- `column_entropy` (lines 698-701). -/
noncomputable def column_entropy (col : List ℚ) : ℝ :=
  entropyCounts (roundedCounts col)

/-- The per-column entropy weight vector `w` (line 748), computed from
the columns of the encoded real table. -/
noncomputable def entropyWeights (rows : List (List ℚ)) : List ℝ :=
  (List.range (ncols rows)).map (fun j => column_entropy (colOf rows j))

/-- `min_dist_real_synth(row, real_array, fake_array, thres, w)`
(lines 751-761): the hit flag, the minimum weighted distance to the
synthetic rows, and the second-smallest weighted distance to the real
rows (self included; the source keeps `second` whenever
`first < second`, else `first`). -/
noncomputable def min_dist_real_synth (r : List ℚ) (realRows genRows : List (List ℚ))
    (thres : List ℚ) (w : List ℝ) : Bool × ℝ × ℝ :=
  let hit := hitAny r genRows thres
  let fakeMin := listMin 0 (genRows.map (fun g => euclidean_distance_w r g w))
  let rd := realRows.map (fun g => euclidean_distance_w r g w)
  let first := listMin 0 rd
  let second := listMin 0 (rd.erase first)
  (hit, fakeMin, if first < second then second else first)

/-- `compute_distances_hits` (lines 703-782): per synthetic row the two
smallest unweighted distances to the real set (`s_r_l2_min_1/2`), and
per real row the hit flag, `r_s_diff_min` and `r_r_diff_min`.  The dask
partitioning is a pure row-parallel map and is modelled by `List.map`. -/
noncomputable def compute_distances_hits (realRows genRows : List (List ℚ))
    (tp : ℚ) (catIdx : ℕ → Bool) :
    List (ℝ × ℝ) × List (Bool × ℝ × ℝ) :=
  let thres := thresVec realRows tp catIdx
  let w := entropyWeights realRows
  (genRows.map (fun g => min_l2_distance g realRows),
   realRows.map (fun r => min_dist_real_synth r realRows genRows thres w))

/-- `hitting_rate(stats)` (lines 784-792): `stats["hit"].sum() / len(X)`
(numpy sums booleans as 0/1). -/
noncomputable def hitting_rate (stats : List (Bool × ℝ × ℝ)) (nX : ℕ) : ℝ :=
  ((stats.map (fun s => if s.1 then (1 : ℝ) else 0)).sum) / (nX : ℝ)

/-- `epsilon_identifiability_risk(stats)` (lines 794-803):
`np.sum(r_s_diff_min - r_r_diff_min < 0) / len(X)`. -/
noncomputable def epsilon_identifiability_risk (stats : List (Bool × ℝ × ℝ)) (nX : ℕ) : ℝ :=
  ((stats.map (fun s => if s.2.1 - s.2.2 < 0 then (1 : ℝ) else 0)).sum) / (nX : ℝ)

/-- `mean_distance_closest_record(stats)` (lines 805-813):
`stats["s_r_l2_min_1"].mean()`. -/
noncomputable def mean_distance_closest_record (synthStats : List (ℝ × ℝ)) : ℝ :=
  (synthStats.map Prod.fst).sum / (synthStats.length : ℝ)

/-- `nearest_neighbor_distance_ratio(stats)` (lines 815-825):
`np.mean(s_r_l2_min_1 / s_r_l2_min_2)`. -/
noncomputable def nearest_neighbor_distance_ratio (synthStats : List (ℝ × ℝ)) : ℝ :=
  (synthStats.map (fun p => p.1 / p.2)).sum / (synthStats.length : ℝ)

/-- The squared entropy-weighted distance of the risk pass, valued in
`ENNReal` so that the IEEE behaviour of `((row - g) / w) ** 2` at a zero
weight (a finite nonzero difference divided by `0.0` gives `inf`, and the
row sum and square root stay `inf`) is represented exactly:
in `ENNReal`, `x / 0 = ∞` for `x ≠ 0`. -/
noncomputable def wSqDistE (r g : List ℚ) (w : List ℝ) : ENNReal :=
  (List.zipWith (fun d wi => ENNReal.ofReal (((d : ℚ) : ℝ) ^ 2) / ENNReal.ofReal (wi ^ 2))
    (List.zipWith (fun a b => a - b) r g) w).sum

/-! ### Distributional distance engine: Jensen-Shannon
(`jensen_shannon_distance`, lines 827-839)

The source computes, per categorical column,
`jensenshannon(real_data[col], gen_data[col])` — i.e. it hands scipy the
*raw encoded code sequences* of the two columns, which scipy then
normalises as if they were weight vectors.  It does not build the
value-count distributions. -/

/-- scipy's `rel_entr(x, y)` on the nonnegative inputs arising here:
`x * log(x / y)` for `x > 0`, else `0` for `x = 0`. -/
noncomputable def relEntr (x y : ℝ) : ℝ :=
  if x = 0 then 0 else x * Real.log (x / y)

/-- `scipy.spatial.distance.jensenshannon(p, q)` with the default
natural-log base: normalise `p` and `q` to probability vectors, take the
midpoint `m`, and return the square root of half the summed relative
entropies. -/
noncomputable def jensenshannon (p q : List ℝ) : ℝ :=
  let pn := p.map (fun x => x / p.sum)
  let qn := q.map (fun x => x / q.sum)
  let m := List.zipWith (fun a b => (a + b) / 2) pn qn
  Real.sqrt (((List.zipWith relEntr pn m).sum + (List.zipWith relEntr qn m).sum) / 2)

/-- `jensen_shannon_distance` (line 835) for one categorical column:
`jensenshannon` applied to the raw encoded code columns themselves. -/
noncomputable def jensen_shannon_distance (realCol genCol : List ℤ) : ℝ :=
  jensenshannon (realCol.map (fun c => (c : ℝ))) (genCol.map (fun c => (c : ℝ)))

/-- The claim's (and specification's) reading: the Jensen-Shannon
distance between the two columns' value-count distributions over the
shared codebook. -/
noncomputable def specJensenShannonCounts (realCol genCol : List ℤ)
    (codebook : List ℤ) : ℝ :=
  jensenshannon (codebook.map (fun v => ((realCol.count v : ℕ) : ℝ)))
    (codebook.map (fun v => ((genCol.count v : ℕ) : ℝ)))

/-! ### Correlation engine: correlation ratio (`correlation_ratio`,
lines 611-629, and `ratio_mat`, lines 631-642)

`correlation_ratio(categories, measurements)` factorizes the categorical
column (groups = distinct values), computes each group's size and mean of
the continuous column, the size-weighted overall mean, and returns
`numerator / denominator` with `numerator = Σ n_v (μ_v - μ)²` (between
groups) and `denominator = Σ (x - μ)²` (total), or `0.0` when the
numerator is `0`.  Two same-length columns of one frame are modelled as
two lists. -/

variable {K : Type} [DecidableEq K]

/-- `measurements[np.argwhere(fcat == i)]` (line 617): the measurement
entries whose category value is `v`. -/
def groupVals (cats : List K) (meas : List ℚ) (v : K) : List ℚ :=
  ((cats.zip meas).filter (fun p => decide (p.1 = v))).map Prod.snd

/-- `n_array[i] = len(cat_measures)` (line 618). -/
def nOf (cats : List K) (meas : List ℚ) (v : K) : ℚ :=
  ((groupVals cats meas v).length : ℚ)

/-- `y_avg_array[i] = np.average(cat_measures)` (line 619). -/
def avgOf (cats : List K) (meas : List ℚ) (v : K) : ℚ :=
  (groupVals cats meas v).sum / nOf cats meas v

/-- `y_total_avg = sum(y_avg_array * n_array) / sum(n_array)` (line 620). -/
def yTotalAvg (cats : List K) (meas : List ℚ) : ℚ :=
  ((cats.dedup).map (fun v => avgOf cats meas v * nOf cats meas v)).sum
    / ((cats.dedup).map (fun v => nOf cats meas v)).sum

/-- `correlation_ratio` (lines 611-629). -/
def correlation_ratio (cats : List K) (meas : List ℚ) : ℚ :=
  let yt := yTotalAvg cats meas
  let num := ((cats.dedup).map (fun v => nOf cats meas v * (avgOf cats meas v - yt) ^ 2)).sum
  let den := (meas.map (fun x => (x - yt) ^ 2)).sum
  if num = 0 then 0 else num / den

/-- `ratio_mat(df, continuous_columns, categorical_columns)`
(lines 631-642): `np.zeros(1)` — a single-element zero matrix — when
either column set is empty, otherwise the matrix with rows indexed by
continuous columns and entries `correlation_ratio(df[cat], df[cont])`. -/
def ratio_mat (conts : List (List ℚ)) (cats : List (List K)) : List (List ℚ) :=
  if cats = [] ∨ conts = [] then [[0]]
  else conts.map (fun cont => cats.map (fun cat => correlation_ratio cat cont))

/-- Between-group variance as the specification words it:
`Σ n_v (μ_v - μ)² / n` with `μ` the plain mean of the measurements and
groups given by the categorical column's distinct values. -/
def specBetweenVariance (cats : List K) (meas : List ℚ) : ℚ :=
  ((cats.dedup).map (fun v =>
    nOf cats meas v * (avgOf cats meas v - meas.sum / (meas.length : ℚ)) ^ 2)).sum
  / (meas.length : ℚ)

/-- Total variance as the specification words it: `Σ (x - μ)² / n`. -/
def specTotalVariance (meas : List ℚ) : ℚ :=
  (meas.map (fun x => (x - meas.sum / (meas.length : ℚ)) ^ 2)).sum / (meas.length : ℚ)

/-- `η² = between-group variance / total variance`, the claim's reading
of the correlation ratio. -/
def specEtaSq (cats : List K) (meas : List ℚ) : ℚ :=
  specBetweenVariance cats meas / specTotalVariance meas

/-! ### Remaining metric computations used by the container-level
operations: Pearson correlation (`np.corrcoef` / `DataFrame.corr`),
Theil's U (`dython.nominal.theils_u`, used by `theils_u_mat`), Frobenius
norms of matrix differences (`np.linalg.norm`), and the 1-D Wasserstein
distance (`scipy.stats.wasserstein_distance`). -/

/-- One entry of `np.corrcoef`: the Pearson correlation coefficient
`cov(x, y) / (σx σy)` (the `1/(n-1)` factors cancel). -/
noncomputable def pearsonR (x y : List ℚ) : ℝ :=
  let mx := x.sum / (x.length : ℚ)
  let my := y.sum / (y.length : ℚ)
  let cov := (List.zipWith (fun a b => (a - mx) * (b - my)) x y).sum
  ((cov : ℚ) : ℝ)
    / (Real.sqrt (((x.map (fun a => (a - mx) ^ 2)).sum : ℚ) : ℝ)
      * Real.sqrt (((y.map (fun b => (b - my) ^ 2)).sum : ℚ) : ℝ))

/-- `np.corrcoef(num_mat, rowvar=False)` / `DataFrame.corr()`: the full
pairwise Pearson matrix over a list of columns. -/
noncomputable def pearsonMatrix (cols : List (List ℚ)) : List (List ℝ) :=
  cols.map (fun x => cols.map (fun y => pearsonR x y))

/-- Shannon entropy of a column's empirical value distribution
(`ss.entropy(p_x)` inside dython's `theils_u`), natural logarithm. -/
noncomputable def shannonEntropy {α : Type} [DecidableEq α] (l : List α) : ℝ :=
  -(l.dedup.map (fun v => ((l.count v : ℕ) : ℝ) / ((l.length : ℕ) : ℝ)
      * Real.log (((l.count v : ℕ) : ℝ) / ((l.length : ℕ) : ℝ)))).sum

/-- dython's `conditional_entropy(x, y) = H(x|y)`:
`-Σ p_xy log(p_xy / p_y)` over the observed joint values. -/
noncomputable def conditional_entropy {α β : Type} [DecidableEq α] [DecidableEq β]
    (x : List α) (y : List β) : ℝ :=
  -((x.zip y).dedup.map (fun p =>
      ((((x.zip y).count p : ℕ) : ℝ) / (((x.zip y).length : ℕ) : ℝ))
      * Real.log ((((x.zip y).count p : ℕ) : ℝ) / ((y.count p.2 : ℕ) : ℝ)))).sum

/-- `dython.nominal.theils_u(x, y) = (H(x) - H(x|y)) / H(x)`, and `1`
when `H(x) = 0`. -/
noncomputable def theils_u {α β : Type} [DecidableEq α] [DecidableEq β]
    (x : List α) (y : List β) : ℝ :=
  let s_x := shannonEntropy x
  if s_x = 0 then 1 else (s_x - conditional_entropy x y) / s_x

/-- `theils_u_mat` (lines 599-608): the full pairwise Theil's U matrix
over the categorical columns. -/
noncomputable def theils_u_mat (cols : List (List ℤ)) : List (List ℝ) :=
  cols.map (fun x => cols.map (fun y => theils_u x y))

/-- Elementwise difference of two matrices. -/
def matSub (a b : List (List ℝ)) : List (List ℝ) :=
  List.zipWith (List.zipWith (fun x y => x - y)) a b

/-- `np.linalg.norm` of a matrix: the Frobenius norm. -/
noncomputable def frobeniusNorm (m : List (List ℝ)) : ℝ :=
  Real.sqrt ((m.map (fun row => (row.map (fun a => a ^ 2)).sum)).sum)

/-- `scipy.stats.wasserstein_distance(u, w)` for two unweighted samples:
`Σ |F_u(z_i) - F_w(z_i)| (z_{i+1} - z_i)` over the sorted merged values,
with `F` the empirical CDF. -/
def wasserstein_distance (u w : List ℚ) : ℚ :=
  let allv := (u ++ w).insertionSort (· ≤ ·)
  (List.zipWith (fun a b =>
      |((u.countP (fun z => decide (z ≤ a)) : ℕ) : ℚ) / (u.length : ℚ)
        - ((w.countP (fun z => decide (z ≤ a)) : ℕ) : ℚ) / (w.length : ℚ)| * (b - a))
    allv allv.tail).sum

/-! ### Dataset container (`Dataset`, claim C9)

The container owns the train/validation/test feature and label tables,
the synthetic feature and label tables, and the codebooks written once
at initialization by `compute_categories`.  Each Python method is
modelled as a state transformer `DState V → DState V × result`; a method
that assigns to a `self.` field returns an updated state
(`compute_categories_op` below does), and the metric computations —
which only read fields and work on fresh copies (`encode_categories`
copies its frame, `fillNa_*` run on frames newly built inside
`compute_correlations`, the dask frames are built from fresh encoded
data) — return the state unchanged. -/

/-- The Dataset container state: its tables and codec codebooks. -/
structure DState (V : Type) where
  X : MixedTable V
  X_val : MixedTable V
  X_test : MixedTable V
  y : List V
  y_val : List V
  y_test : List V
  X_gen : MixedTable V
  y_gen : List V
  X_cats : List (List V)

/-- `compute_categories` (lines 267-272): the one container write of the
codec — it stores the training table's codebooks in `self.X_cats`. -/
def compute_categories_op (s : DState V) : DState V :=
  { s with X_cats := s.X.catCols.map codebookOf }

/-- `LabelEncoder.fit(y).transform(ys)`: classes are the sorted distinct
training labels, each label maps to its class index. -/
def encode_labels (classes : List V) (ys : List V) : List ℤ :=
  ys.map (fun v => (classes.indexOf v : ℤ))

/-- The encoded categorical columns of a table (`encode_categories`). -/
def encCats (t : MixedTable V) : List (List ℤ) :=
  t.catCols.map encodeColumn

/-- The full numeric column list of one encoded frame built by
`get_single_encoded_data`: encoded categorical columns, continuous
columns, and the ordinally encoded label column. -/
def encColumns (t : MixedTable V) (classes : List V) (ys : List V) : List (List ℚ) :=
  (encCats t).map (fun col => col.map (fun c => (c : ℚ)))
    ++ t.contCols
    ++ [(encode_labels classes ys).map (fun c => (c : ℚ))]

/-- `get_single_encoded_data` (lines 587-597) as a read of the container:
the encoded real (train) frame and the encoded synthetic frame, both
using the label encoder fitted on the training labels. -/
def get_single_encoded_data (s : DState V) : List (List ℚ) × List (List ℚ) :=
  (encColumns s.X (codebookOf s.y) s.y, encColumns s.X_gen (codebookOf s.y) s.y_gen)

/-- `compute_correlations(df)` (lines 656-669): the Pearson matrix over
the continuous columns, the Theil's U matrix over the categorical
columns, and the correlation-ratio matrix (the container tables modelled
here carry no missing values, so the `fillNa_*` steps are identities). -/
noncomputable def compute_correlations (catCols : List (List ℤ)) (contCols : List (List ℚ)) :
    List (List ℝ) × List (List ℝ) × List (List ℚ) :=
  (pearsonMatrix contCols, theils_u_mat catCols, ratio_mat contCols catCols)

/-- Cast a rational matrix to a real matrix (numpy holds all of these as
floats). -/
def matR (m : List (List ℚ)) : List (List ℝ) :=
  m.map (fun row => row.map (fun a => ((a : ℚ) : ℝ)))

/-- `get_correlations` (lines 671-689): compute the three correlation
matrices for the real and the synthetic frame and return the Frobenius
norms of their differences. -/
noncomputable def get_correlations (s : DState V) : DState V × (ℝ × ℝ × ℝ) :=
  let realC := compute_correlations (encCats s.X) s.X.contCols
  let genC := compute_correlations (encCats s.X_gen) s.X_gen.contCols
  (s, (frobeniusNorm (matSub realC.1 genC.1),
       frobeniusNorm (matSub realC.2.1 genC.2.1),
       frobeniusNorm (matSub (matR realC.2.2) (matR genC.2.2))))

/-- `get_pearson_correlation` (lines 691-696): the elementwise absolute
difference of the two full-frame Pearson matrices. -/
noncomputable def get_pearson_correlation (s : DState V) : DState V × List (List ℝ) :=
  let rd := get_single_encoded_data s
  (s, (matSub (pearsonMatrix rd.1) (pearsonMatrix rd.2)).map (fun row =>
    row.map (fun a => |a|)))

/-- `compute_distances_hits` as a container operation (lines 703-782):
run the row-level distance pass on the rows (transposed columns) of the
two encoded frames; the categorical and label columns get zero
thresholds. -/
noncomputable def compute_distances_hits_op (s : DState V) (tp : ℚ) :
    DState V × (List (ℝ × ℝ) × List (Bool × ℝ × ℝ)) :=
  let rd := get_single_encoded_data s
  (s, compute_distances_hits rd.1.transpose rd.2.transpose tp
    (fun j => decide (j < s.X.catCols.length)
      || decide (j = s.X.catCols.length + s.X.contCols.length)))

/-- `jensen_shannon_distance` as a container operation (lines 827-839):
one distance per categorical column, pairing the real and synthetic
encoded columns. -/
noncomputable def jensen_shannon_distance_op (s : DState V) : DState V × List ℝ :=
  (s, List.zipWith jensen_shannon_distance (encCats s.X) (encCats s.X_gen))

/-- `wasserstein_distance` as a container operation (lines 841-855): one
distance per continuous column. -/
def wasserstein_distance_op (s : DState V) : DState V × List ℚ :=
  (s, List.zipWith wasserstein_distance s.X.contCols s.X_gen.contCols)

/-! ## Helper lemmas -/

theorem codebookOf_congr {col train : List V} (h : col.toFinset = train.toFinset) :
    codebookOf col = codebookOf train := by
  unfold codebookOf
  refine List.eq_of_perm_of_sorted
    ((List.perm_insertionSort _ _).trans
      ((List.toFinset_eq_iff_perm_dedup.mp h).trans
        (List.perm_insertionSort _ _).symm))
    (List.sorted_insertionSort _ _) (List.sorted_insertionSort _ _)

theorem mem_codebookOf {col : List V} {v : V} (hv : v ∈ col) : v ∈ codebookOf col := by
  unfold codebookOf
  rw [(List.perm_insertionSort _ _).mem_iff, List.mem_dedup]
  exact hv

theorem decodeColumn_specEncode (cb col : List V) (h : ∀ v ∈ col, v ∈ cb) :
    decodeColumn cb (specEncodeColumn cb col) = some (col.map some) := by
  induction col with
  | nil => rfl
  | cons a t ih =>
    have ha : a ∈ cb := h a (List.mem_cons_self a t)
    have hidx : cb.indexOf a < cb.length := List.indexOf_lt_length.2 ha
    have ht : ∀ v ∈ t, v ∈ cb := fun v hv => h v (List.mem_cons_of_mem _ hv)
    simp only [specEncodeColumn, List.map_cons, decodeColumn, List.mapM_cons] at ih ⊢
    rw [if_neg (by omega : ¬((cb.indexOf a : ℕ) : ℤ) = -1)]
    rw [dif_pos ⟨Int.natCast_nonneg _, by simpa using hidx⟩]
    have hget : cb.get ⟨((cb.indexOf a : ℕ) : ℤ).toNat, by simpa using hidx⟩ = a := by
      simp only [Int.toNat_natCast]
      exact List.indexOf_get hidx
    rw [hget, ih ht]
    rfl

theorem encodeColumn_eq_spec {col train : List V} (h : col.toFinset = train.toFinset) :
    encodeColumn col = specEncodeColumn (codebookOf train) col := by
  unfold encodeColumn specEncodeColumn
  rw [codebookOf_congr h]

theorem decodeColumn_encodeColumn {col train : List V}
    (h : col.toFinset = train.toFinset) :
    decodeColumn (codebookOf train) (encodeColumn col) = some (col.map some) := by
  rw [encodeColumn_eq_spec h]
  refine decodeColumn_specEncode _ _ (fun v hv => ?_)
  have hvt : v ∈ col.toFinset := List.mem_toFinset.2 hv
  rw [h] at hvt
  exact mem_codebookOf (List.mem_toFinset.1 hvt)

theorem decodeCols_encodeCols {cs ts : List (List V)}
    (h : List.Forall₂ (fun c tr => c.toFinset = tr.toFinset) cs ts) :
    ((ts.map codebookOf).zip (cs.map encodeColumn)).mapM
        (fun p => decodeColumn p.1 p.2) =
      some (cs.map (fun c => c.map some)) := by
  induction h with
  | nil => rfl
  | cons hct htl ih =>
    simp only [List.map_cons, List.zip_cons_cons, List.mapM_cons]
    rw [decodeColumn_encodeColumn hct, ih]
    rfl

theorem forall₂_map_self {α β : Type} (f : α → β) (R : α → β → Prop)
    (h : ∀ a, R a (f a)) (l : List α) : List.Forall₂ R l (l.map f) := by
  induction l with
  | nil => exact List.Forall₂.nil
  | cons a t ih => exact List.Forall₂.cons (h a) ih

theorem listMin_le {α : Type} [LinearOrder α] (d : α) :
    ∀ (l : List α), ∀ x ∈ l, listMin d l ≤ x := by
  intro l
  induction l with
  | nil => intro x hx; cases hx
  | cons a t ih =>
    intro x hx
    cases t with
    | nil =>
      simp only [List.mem_singleton] at hx
      subst hx
      simp [listMin]
    | cons b t2 =>
      rcases List.mem_cons.1 hx with rfl | hx2
      · exact min_le_left _ _
      · exact le_trans (min_le_right _ _) (ih x hx2)

theorem listMin_mem {α : Type} [LinearOrder α] (d : α) :
    ∀ (l : List α), l ≠ [] → listMin d l ∈ l := by
  intro l
  induction l with
  | nil => intro h; exact absurd rfl h
  | cons a t ih =>
    intro _
    cases t with
    | nil => simp [listMin]
    | cons b t2 =>
      have hm := ih (by simp)
      rcases le_total a (listMin d (b :: t2)) with hab | hab
      · rw [show listMin d (a :: b :: t2) = min a (listMin d (b :: t2)) from rfl,
          min_eq_left hab]
        exact List.mem_cons_self _ _
      · rw [show listMin d (a :: b :: t2) = min a (listMin d (b :: t2)) from rfl,
          min_eq_right hab]
        exact List.mem_cons_of_mem _ hm

theorem listMax_mem {α : Type} [LinearOrder α] (d : α) :
    ∀ (l : List α), l ≠ [] → listMax d l ∈ l := by
  intro l
  induction l with
  | nil => intro h; exact absurd rfl h
  | cons a t ih =>
    intro _
    cases t with
    | nil => simp [listMax]
    | cons b t2 =>
      have hm := ih (by simp)
      rcases le_total a (listMax d (b :: t2)) with hab | hab
      · rw [show listMax d (a :: b :: t2) = max a (listMax d (b :: t2)) from rfl,
          max_eq_right hab]
        exact List.mem_cons_of_mem _ hm
      · rw [show listMax d (a :: b :: t2) = max a (listMax d (b :: t2)) from rfl,
          max_eq_left hab]
        exact List.mem_cons_self _ _

theorem listMin_le_listMax {α : Type} [LinearOrder α] (d : α) (l : List α)
    (h : l ≠ []) : listMin d l ≤ listMax d l :=
  listMin_le d l _ (listMax_mem d l h)

theorem erase_ne_nil_of_two_le {α : Type} [DecidableEq α] (l : List α) (a : α)
    (h : 2 ≤ l.length) : l.erase a ≠ [] := by
  have hlen : l.length - 1 ≤ (l.erase a).length := by
    rw [List.length_erase]
    split <;> omega
  intro hnil
  rw [hnil] at hlen
  simp only [List.length_nil, Nat.le_zero] at hlen
  omega

theorem listMin_le_erase {α : Type} [LinearOrder α] (d : α) (l : List α)
    (h2 : 2 ≤ l.length) :
    listMin d l ≤ listMin d (l.erase (listMin d l)) := by
  have hne : l.erase (listMin d l) ≠ [] := erase_ne_nil_of_two_le l _ h2
  exact listMin_le d l _ (List.mem_of_mem_erase (listMin_mem d _ hne))

theorem listMin_eq_zero_of_nonneg {l : List ℝ} (h0 : (0 : ℝ) ∈ l)
    (hpos : ∀ x ∈ l, 0 ≤ x) : listMin 0 l = 0 := by
  have hne : l ≠ [] := by rintro rfl; cases h0
  exact le_antisymm (listMin_le 0 l 0 h0) (hpos _ (listMin_mem 0 l hne))

theorem min_l2_distance_spec (row : List ℚ) (realRows : List (List ℚ))
    (h2 : 2 ≤ realRows.length) :
    0 ≤ (min_l2_distance row realRows).1
    ∧ (min_l2_distance row realRows).1 ≤ (min_l2_distance row realRows).2 := by
  unfold min_l2_distance
  set d := realRows.map (fun r => euclidean_distance row r) with hd
  have hlen : 2 ≤ d.length := by
    rw [hd, List.length_map]
    exact h2
  have hdnil : d ≠ [] := by
    intro h
    rw [h] at hlen
    simp at hlen
  have hd0 : ∀ x ∈ d, 0 ≤ x := by
    intro x hx
    rcases List.mem_map.1 hx with ⟨r, _, rfl⟩
    exact Real.sqrt_nonneg _
  have hfs : listMin 0 d ≤ listMin 0 (d.erase (listMin 0 d)) := listMin_le_erase 0 d hlen
  have hf0 : 0 ≤ listMin 0 d := hd0 _ (listMin_mem 0 d hdnil)
  by_cases hlt : listMin 0 d < listMin 0 (d.erase (listMin 0 d))
  · rw [if_pos hlt]
    exact ⟨hf0, hfs⟩
  · rw [if_neg hlt]
    have hs0 : 0 ≤ listMin 0 (d.erase (listMin 0 d)) := le_trans hf0 hfs
    exact ⟨hs0, le_of_not_lt hlt⟩

theorem zipWith_sub_self (r : List ℚ) :
    List.zipWith (fun a b => a - b) r r = r.map (fun _ => (0 : ℚ)) := by
  induction r with
  | nil => rfl
  | cons a t ih => simp [List.zipWith_cons_cons, ih]

theorem euclidean_distance_self (g : List ℚ) : euclidean_distance g g = 0 := by
  unfold euclidean_distance sqDiffSum
  rw [zipWith_sub_self]
  have hz : ((g.map (fun _ => (0 : ℚ))).map (fun d => d ^ 2)).sum = 0 := by
    rw [List.map_map]
    apply List.sum_eq_zero
    intro x hx
    rcases List.mem_map.1 hx with ⟨y, _, rfl⟩
    norm_num
  rw [hz]
  simp

theorem min_l2_first_eq_zero {g : List ℚ} {realRows : List (List ℚ)}
    (hmem : g ∈ realRows) (h2 : 2 ≤ realRows.length) :
    (min_l2_distance g realRows).1 = 0 := by
  unfold min_l2_distance
  set d := realRows.map (fun r => euclidean_distance g r) with hd
  have h0mem : (0 : ℝ) ∈ d := by
    rw [hd]
    exact List.mem_map.2 ⟨g, hmem, euclidean_distance_self g⟩
  have hd0 : ∀ x ∈ d, 0 ≤ x := by
    intro x hx
    rcases List.mem_map.1 hx with ⟨r, _, rfl⟩
    exact Real.sqrt_nonneg _
  have hf : listMin 0 d = 0 := listMin_eq_zero_of_nonneg h0mem hd0
  have hlen : 2 ≤ d.length := by
    rw [hd, List.length_map]
    exact h2
  have hne : d.erase (listMin 0 d) ≠ [] := erase_ne_nil_of_two_le d _ hlen
  have hs0 : 0 ≤ listMin 0 (d.erase (listMin 0 d)) :=
    hd0 _ (List.mem_of_mem_erase (listMin_mem 0 _ hne))
  by_cases hlt : listMin 0 d < listMin 0 (d.erase (listMin 0 d))
  · rw [if_pos hlt]
    exact hf
  · rw [if_neg hlt]
    have hs1 : listMin 0 (d.erase (listMin 0 d)) ≤ 0 :=
      le_trans (le_of_not_lt hlt) (le_of_eq hf)
    exact le_antisymm hs1 hs0

theorem thresVec_nonneg (rows : List (List ℚ)) (tp : ℚ) (catIdx : ℕ → Bool)
    (hrows : rows ≠ []) (htp : 0 ≤ tp) : ∀ t ∈ thresVec rows tp catIdx, 0 ≤ t := by
  intro t ht
  unfold thresVec at ht
  rcases List.mem_map.1 ht with ⟨j, _, rfl⟩
  split
  · exact le_refl 0
  · apply mul_nonneg htp
    rw [sub_nonneg]
    apply listMin_le_listMax
    intro hcol
    exact hrows (List.map_eq_nil_iff.1 hcol)

theorem zipWith_zero_thres (l : List ℚ) :
    ∀ (th : List ℚ), (∀ t ∈ th, 0 ≤ t) →
      (List.zipWith (fun d t => decide (|d| ≤ t)) (l.map (fun _ => (0 : ℚ))) th).all id
        = true := by
  induction l with
  | nil => intro th _; rfl
  | cons a t ih =>
    intro th hth
    cases th with
    | nil => rfl
    | cons t0 th2 =>
      simp only [List.map_cons, List.zipWith_cons_cons, List.all_cons, Bool.and_eq_true, id]
      refine ⟨?_, ih th2 (fun x hx => hth x (List.mem_cons_of_mem _ hx))⟩
      simp only [abs_zero, decide_eq_true_eq]
      exact hth t0 (List.mem_cons_self _ _)

theorem rowHit_self (r : List ℚ) (thres : List ℚ) (hth : ∀ t ∈ thres, 0 ≤ t) :
    rowHit r r thres = true := by
  unfold rowHit
  rw [zipWith_sub_self]
  exact zipWith_zero_thres r thres hth

theorem sum_indicator_eq_countP {α : Type} (l : List α) (p : α → Bool) :
    (l.map (fun x => if p x then (1 : ℝ) else 0)).sum = ((l.countP p : ℕ) : ℝ) := by
  induction l with
  | nil => simp
  | cons a t ih =>
    simp only [List.map_cons, List.sum_cons, List.countP_cons, ih]
    cases h : p a
    · simp [h]
    · simp only [h, if_true, if_pos]
      push_cast
      ring

theorem sum_map_one {α : Type} (l : List α) :
    (l.map (fun _ => (1 : ℝ))).sum = (l.length : ℝ) := by
  induction l with
  | nil => simp
  | cons a t ih =>
    simp only [List.map_cons, List.sum_cons, List.length_cons, ih]
    push_cast
    ring

theorem sum_indicator_all_true {α : Type} (l : List α) (p : α → Bool)
    (h : ∀ x ∈ l, p x = true) :
    (l.map (fun x => if p x then (1 : ℝ) else 0)).sum = (l.length : ℝ) := by
  rw [sum_indicator_eq_countP, List.countP_eq_length.2 h]

theorem dedup_eq_singleton_of_all_eq {α : Type} [DecidableEq α] (l : List α) (v : α)
    (h : ∀ x ∈ l, x = v) (hne : l ≠ []) : l.dedup = [v] := by
  have hd : ∀ x ∈ l.dedup, x = v := fun x hx => h x (List.mem_dedup.1 hx)
  have hnd : l.dedup.Nodup := l.nodup_dedup
  have hdne : l.dedup ≠ [] := by rwa [ne_eq, List.dedup_eq_nil]
  cases hdd : l.dedup with
  | nil => exact absurd hdd hdne
  | cons a t =>
    have ha : a = v := hd a (by rw [hdd]; exact List.mem_cons_self _ _)
    cases t with
    | nil => rw [ha]
    | cons b t2 =>
      have hb : b = v := hd b (by
        rw [hdd]
        exact List.mem_cons_of_mem _ (List.mem_cons_self _ _))
      rw [hdd] at hnd
      have hab : a ≠ b := by
        intro habs
        exact (List.nodup_cons.1 hnd).1 (habs ▸ List.mem_cons_self _ _)
      exact absurd (ha.trans hb.symm) hab

theorem codebookOf_all_eq (l : List V) (v : V)
    (h : ∀ x ∈ l, x = v) (hne : l ≠ []) : codebookOf l = [v] := by
  unfold codebookOf
  rw [dedup_eq_singleton_of_all_eq l v h hne]
  rfl

theorem roundedCounts_const (col : List ℚ) (v : ℤ)
    (h : ∀ x ∈ col, npRound x = v) (hne : col ≠ []) :
    roundedCounts col = [col.length] := by
  show (codebookOf (col.map npRound)).map (fun v2 => (col.map npRound).count v2)
      = [col.length]
  have hall : ∀ x ∈ col.map npRound, x = v := by
    intro x hx
    rcases List.mem_map.1 hx with ⟨y, hy, rfl⟩
    exact h y hy
  have hmne : col.map npRound ≠ [] := by
    intro habs
    exact hne (List.map_eq_nil_iff.1 habs)
  rw [codebookOf_all_eq _ v hall hmne]
  simp only [List.map_cons, List.map_nil]
  rw [List.count_eq_length.2 (fun b hb => (hall b hb).symm), List.length_map]

theorem entropyCounts_singleton (n : ℕ) (hn : n ≠ 0) : entropyCounts [n] = 0 := by
  unfold entropyCounts
  have hc : ((n : ℕ) : ℝ) ≠ 0 := Nat.cast_ne_zero.2 hn
  simp [div_self hc, Real.log_one]

theorem column_entropy_const (col : List ℚ) (v : ℤ)
    (h : ∀ x ∈ col, npRound x = v) (hne : col ≠ []) : column_entropy col = 0 := by
  unfold column_entropy
  rw [roundedCounts_const col v h hne]
  exact entropyCounts_singleton _ (List.length_pos.2 hne).ne'

theorem entropyWeights_getD (rows : List (List ℚ)) (j : ℕ) (hj : j < ncols rows) :
    (entropyWeights rows).getD j 1 = column_entropy (colOf rows j) := by
  unfold entropyWeights
  rw [List.getD_eq_getElem _ _ (by simpa using hj), List.getElem_map, List.getElem_range]

theorem list_sum_eq_top {l : List ENNReal} (h : (⊤ : ENNReal) ∈ l) : l.sum = ⊤ := by
  induction l with
  | nil => cases h
  | cons a t ih =>
    rcases List.mem_cons.1 h with h1 | h2
    · rw [List.sum_cons, ← h1]
      simp
    · rw [List.sum_cons, ih h2]
      simp

theorem wSqDistE_eq_top (r g : List ℚ) (w : List ℝ) (j : ℕ)
    (hjr : j < r.length) (hjg : j < g.length) (hjw : j < w.length)
    (hne : r.getD j 0 ≠ g.getD j 0) (hw0 : w.getD j 1 = 0) :
    wSqDistE r g w = ⊤ := by
  unfold wSqDistE
  apply list_sum_eq_top
  have hjz : j < (List.zipWith
      (fun d wi => ENNReal.ofReal (((d : ℚ) : ℝ) ^ 2) / ENNReal.ofReal (wi ^ 2))
      (List.zipWith (fun a b => a - b) r g) w).length := by
    simp only [List.length_zipWith]
    omega
  have hval : (List.zipWith
      (fun d wi => ENNReal.ofReal (((d : ℚ) : ℝ) ^ 2) / ENNReal.ofReal (wi ^ 2))
      (List.zipWith (fun a b => a - b) r g) w)[j] = ⊤ := by
    simp only [List.getElem_zipWith]
    have hrj : r[j] = r.getD j 0 := (List.getD_eq_getElem r 0 hjr).symm
    have hgj : g[j] = g.getD j 0 := (List.getD_eq_getElem g 0 hjg).symm
    have hwj : w[j] = 0 := by
      rw [← hw0]
      exact (List.getD_eq_getElem w 1 hjw).symm
    rw [hwj]
    have hdne : r[j] - g[j] ≠ 0 := by
      rw [hrj, hgj]
      exact sub_ne_zero.2 hne
    have hcast : ((r[j] - g[j] : ℚ) : ℝ) ≠ 0 := by exact_mod_cast hdne
    have hnum : ENNReal.ofReal (((r[j] - g[j] : ℚ) : ℝ) ^ 2) ≠ 0 := by
      rw [ne_eq, ENNReal.ofReal_eq_zero, not_le]
      exact lt_of_le_of_ne (sq_nonneg _) (Ne.symm (pow_ne_zero 2 hcast))
    rw [show ((0 : ℝ) ^ 2) = 0 by norm_num, ENNReal.ofReal_zero]
    exact ENNReal.div_zero hnum
  rw [← hval]
  exact List.getElem_mem hjz

theorem sum_map_add_q {α : Type} (l : List α) (a b : α → ℚ) :
    (l.map (fun x => a x + b x)).sum = (l.map a).sum + (l.map b).sum := by
  induction l with
  | nil => simp
  | cons x t ih =>
    simp only [List.map_cons, List.sum_cons, ih]
    ring

theorem sum_map_const_one_q {α : Type} (l : List α) :
    (l.map (fun _ => (1 : ℚ))).sum = (l.length : ℚ) := by
  induction l with
  | nil => simp
  | cons x t ih =>
    simp only [List.map_cons, List.sum_cons, List.length_cons, ih]
    push_cast
    ring

theorem sum_map_ite_zero (t : List K) (v0 : K) (c : ℚ) (h : v0 ∉ t) :
    (t.map (fun v => if v0 = v then c else 0)).sum = 0 := by
  induction t with
  | nil => simp
  | cons x t ih =>
    simp only [List.map_cons, List.sum_cons]
    rw [if_neg (by rintro rfl; exact h (List.mem_cons_self _ _)),
      ih (fun hm => h (List.mem_cons_of_mem _ hm))]
    ring

theorem sum_map_ite_single (l : List K) (v0 : K) (c : ℚ)
    (hnd : l.Nodup) (hv : v0 ∈ l) :
    (l.map (fun v => if v0 = v then c else 0)).sum = c := by
  induction l with
  | nil => cases hv
  | cons x t ih =>
    simp only [List.map_cons, List.sum_cons]
    rcases List.mem_cons.1 hv with rfl | hvt
    · rw [if_pos rfl, sum_map_ite_zero t v0 c (List.nodup_cons.1 hnd).1]
      ring
    · have hx : ¬(v0 = x) := by
        rintro rfl
        exact (List.nodup_cons.1 hnd).1 hvt
      rw [if_neg hx, ih (List.nodup_cons.1 hnd).2 hvt]
      ring

theorem filter_key_eq_nil {M : Type} (t : List (K × M)) (v : K)
    (h : v ∉ t.map Prod.fst) : t.filter (fun p => decide (p.1 = v)) = [] := by
  rw [List.filter_eq_nil_iff]
  intro p hp
  simp only [decide_eq_true_eq]
  intro habs
  exact h (List.mem_map.2 ⟨p, hp, habs⟩)

theorem sum_fiber {M : Type} (f : K × M → ℚ) :
    ∀ l : List (K × M),
      ((l.map Prod.fst).dedup.map
        (fun v => ((l.filter (fun p => decide (p.1 = v))).map f).sum)).sum
      = (l.map f).sum := by
  intro l
  induction l with
  | nil => simp
  | cons p t ih =>
    have hF : ∀ v, (((p :: t).filter (fun pr => decide (pr.1 = v))).map f).sum
        = (if p.1 = v then f p else 0)
          + ((t.filter (fun pr => decide (pr.1 = v))).map f).sum := by
      intro v
      rw [List.filter_cons]
      by_cases h : p.1 = v
      · simp [h]
      · simp [h]
    by_cases hmem : p.1 ∈ t.map Prod.fst
    · have hsplit : ((t.map Prod.fst).dedup.map
          (fun v => (((p :: t).filter (fun pr => decide (pr.1 = v))).map f).sum)).sum
          = ((t.map Prod.fst).dedup.map (fun v => (if p.1 = v then f p else 0)
              + ((t.filter (fun pr => decide (pr.1 = v))).map f).sum)).sum :=
        congrArg List.sum (List.map_congr_left (fun v _ => hF v))
      rw [List.map_cons, List.dedup_cons_of_mem hmem, hsplit, sum_map_add_q,
        sum_map_ite_single _ _ _ (List.nodup_dedup _) (List.mem_dedup.2 hmem), ih,
        List.map_cons, List.sum_cons]
    · rw [List.map_cons, List.dedup_cons_of_not_mem hmem, List.map_cons, List.sum_cons,
        hF p.1, if_pos rfl, filter_key_eq_nil t p.1 hmem]
      have htail : ((t.map Prod.fst).dedup.map
          (fun v => (((p :: t).filter (fun pr => decide (pr.1 = v))).map f).sum)).sum
          = ((t.map Prod.fst).dedup.map
            (fun v => ((t.filter (fun pr => decide (pr.1 = v))).map f).sum)).sum := by
        apply congrArg List.sum
        apply List.map_congr_left
        intro v hv
        rw [hF v, if_neg (by rintro rfl; exact hmem (List.mem_dedup.1 hv)), zero_add]
      rw [htail, ih, List.map_cons, List.sum_cons]
      simp

theorem groupVals_sum_fiber (cats : List K) (meas : List ℚ)
    (hlen : cats.length = meas.length) :
    ((cats.dedup).map (fun v => (groupVals cats meas v).sum)).sum = meas.sum := by
  have h := sum_fiber Prod.snd (cats.zip meas)
  rw [List.map_fst_zip _ _ (le_of_eq hlen), List.map_snd_zip _ _ (ge_of_eq hlen)] at h
  exact h

theorem nOf_sum_fiber (cats : List K) (meas : List ℚ)
    (hlen : cats.length = meas.length) :
    ((cats.dedup).map (fun v => nOf cats meas v)).sum = (meas.length : ℚ) := by
  have h := sum_fiber (fun _ => (1 : ℚ)) (cats.zip meas)
  rw [List.map_fst_zip _ _ (le_of_eq hlen)] at h
  have h1 : ∀ v ∈ cats.dedup,
      (((cats.zip meas).filter (fun p => decide (p.1 = v))).map (fun _ => (1 : ℚ))).sum
      = nOf cats meas v := by
    intro v _
    rw [sum_map_const_one_q]
    unfold nOf groupVals
    rw [List.length_map]
  have h2 : ((cats.zip meas).map (fun _ => (1 : ℚ))).sum = (meas.length : ℚ) := by
    rw [sum_map_const_one_q, List.length_zip, hlen, min_self]
  rw [← congrArg List.sum (List.map_congr_left h1), h, h2]

theorem nOf_ne_zero (cats : List K) (meas : List ℚ)
    (hlen : cats.length = meas.length) (v : K) (hv : v ∈ cats.dedup) :
    nOf cats meas v ≠ 0 := by
  have hvc : v ∈ (cats.zip meas).map Prod.fst := by
    rw [List.map_fst_zip _ _ (le_of_eq hlen)]
    exact List.mem_dedup.1 hv
  obtain ⟨p, hp, hpv⟩ := List.mem_map.1 hvc
  have hpf : p ∈ (cats.zip meas).filter (fun q => decide (q.1 = v)) :=
    List.mem_filter.2 ⟨hp, by simp [hpv]⟩
  unfold nOf groupVals
  rw [List.length_map]
  exact Nat.cast_ne_zero.2 (List.length_pos.2 (List.ne_nil_of_mem hpf)).ne'

theorem yTotalAvg_eq_mean (cats : List K) (meas : List ℚ)
    (hlen : cats.length = meas.length) :
    yTotalAvg cats meas = meas.sum / (meas.length : ℚ) := by
  unfold yTotalAvg
  have hpt : ∀ v ∈ cats.dedup,
      avgOf cats meas v * nOf cats meas v = (groupVals cats meas v).sum := by
    intro v hv
    unfold avgOf
    exact div_mul_cancel₀ _ (nOf_ne_zero cats meas hlen v hv)
  rw [congrArg List.sum (List.map_congr_left hpt), groupVals_sum_fiber cats meas hlen,
    nOf_sum_fiber cats meas hlen]

theorem correlation_ratio_eq_spec (cats : List K) (meas : List ℚ)
    (hlen : cats.length = meas.length) (hne : meas ≠ []) :
    correlation_ratio cats meas = specEtaSq cats meas := by
  unfold correlation_ratio specEtaSq specBetweenVariance specTotalVariance
  rw [yTotalAvg_eq_mean cats meas hlen]
  have hn : ((meas.length : ℕ) : ℚ) ≠ 0 :=
    Nat.cast_ne_zero.2 (List.length_pos.2 hne).ne'
  set num := ((cats.dedup).map (fun v =>
    nOf cats meas v * (avgOf cats meas v - meas.sum / (meas.length : ℚ)) ^ 2)).sum with hnum
  set den := (meas.map (fun x => (x - meas.sum / (meas.length : ℚ)) ^ 2)).sum with hden
  by_cases h0 : num = 0
  · rw [if_pos h0, h0, zero_div, zero_div]
  · rw [if_neg h0, div_div_div_cancel_right₀ hn]

/-! ## Claim theorems -/

/-- Claim C1 (confirmed): codec round-trip.  For every table `T` whose
categorical/binary columns contain exactly the distinct values observed
when the codec was fitted (column for column), decoding the encoded
table reproduces `T` exactly: the categorical columns come back value
for value and the continuous columns are untouched. -/
theorem C1_codec_round_trip {V : Type} [LinearOrder V]
    (T train : MixedTable V)
    (h : List.Forall₂ (fun c tr => c.toFinset = tr.toFinset) T.catCols train.catCols) :
    decodeTable (train.catCols.map codebookOf) (encodeTable T) =
      (some (T.catCols.map (fun c => c.map some)), T.contCols) := by
  unfold decodeTable encodeTable
  exact congrArg₂ Prod.mk (decodeCols_encodeCols h) rfl

/-- Witness for C1 at a concrete table: the training column `[2, 0]` and
the encoded table's column `[0, 2, 2]` share the value set `{0, 2}`. -/
theorem C1_codec_round_trip_witness :
    List.Forall₂ (fun (c tr : List ℤ) => c.toFinset = tr.toFinset)
        (MixedTable.catCols (⟨[[0, 2, 2]], [[5]]⟩ : MixedTable ℤ))
        (MixedTable.catCols (⟨[[2, 0]], []⟩ : MixedTable ℤ))
    ∧ decodeTable ((MixedTable.catCols (⟨[[2, 0]], []⟩ : MixedTable ℤ)).map codebookOf)
        (encodeTable (⟨[[0, 2, 2]], [[5]]⟩ : MixedTable ℤ)) =
      (some (((⟨[[0, 2, 2]], [[5]]⟩ : MixedTable ℤ)).catCols.map (fun c => c.map some)),
        (((⟨[[0, 2, 2]], [[5]]⟩ : MixedTable ℤ)).contCols)) :=
  ⟨List.Forall₂.cons (by decide) List.Forall₂.nil,
   C1_codec_round_trip (⟨[[0, 2, 2]], [[5]]⟩ : MixedTable ℤ) ⟨[[2, 0]], []⟩
     (List.Forall₂.cons (by decide) List.Forall₂.nil)⟩

/-- Claim C2 (refuted as stated): `encode_categories` does *not* consult
the codebook fixed at load time.  With training column `[0, 1, 2]`
(codebook `[0, 1, 2]`), encoding the column `[0, 2]` yields `[0, 1]`,
whereas the position of `2` in the fixed codebook is `2`: the same value
receives different codes depending on which other values appear in the
table being encoded. -/
theorem C2_counterexample :
    encodeColumn ([0, 2] : List ℤ) = [0, 1]
    ∧ specEncodeColumn (codebookOf ([0, 1, 2] : List ℤ)) [0, 2] = [0, 2]
    ∧ encodeColumn ([0, 2] : List ℤ) ≠
        specEncodeColumn (codebookOf ([0, 1, 2] : List ℤ)) [0, 2] := by
  decide

/-- Claim C2 (amended): `encode_categories` maps each value of a
categorical/binary column to its position among the sorted distinct
values of that column *of the table being encoded*; it agrees with the
training-table codebook exactly when the column's distinct-value set
equals the training column's. -/
theorem C2_encode_amended {V : Type} [LinearOrder V] (train col : List V)
    (h : col.toFinset = train.toFinset) :
    encodeColumn col = specEncodeColumn (codebookOf train) col :=
  encodeColumn_eq_spec h

/-- Witness for the amended C2 at a concrete pair of columns. -/
theorem C2_encode_amended_witness :
    ([2, 1, 0, 1] : List ℤ).toFinset = ([0, 1, 2] : List ℤ).toFinset
    ∧ encodeColumn ([2, 1, 0, 1] : List ℤ) =
        specEncodeColumn (codebookOf ([0, 1, 2] : List ℤ)) [2, 1, 0, 1] :=
  ⟨by decide, C2_encode_amended [0, 1, 2] [2, 1, 0, 1] (by decide)⟩

/-- Claim C3 (refuted as stated): the encoded tables handed to the
metric engines by `get_single_encoded_data` are *not* imputed.  A table
whose categorical column is `[some 0, none]` and whose continuous column
is `[some 1, none]` encodes to a categorical column containing the
missing-value sentinel `-1` and a continuous column still containing a
missing value. -/
theorem C3_counterexample :
    (-1 : ℤ) ∈ (encodeMixedOpt (V := ℤ) [[some 0, none]] [[some 1, none]]).1.headD []
    ∧ none ∈ (encodeMixedOpt (V := ℤ) [[some 0, none]] [[some 1, none]]).2.headD []
    ∧ ¬ specNoMissingCodes
        ((encodeMixedOpt (V := ℤ) [[some 0, none]] [[some 1, none]]).1.headD []) := by
  decide

/-- Claim C3 (amended): `get_single_encoded_data` performs no
imputation.  In the encoded categorical column the sentinel `-1` appears
exactly at the positions that were missing, continuous columns pass
through the encoding unchanged (missing values intact), and mean
imputation of continuous columns happens only inside the correlation
computation (`fillNa_cont`, applied after encoding), where it does leave
zero missing values. -/
theorem C3_encoding_amended {V : Type} [LinearOrder V]
    (col : List (Option V))
    (cont : List (Option ℚ)) (hc : cont.filterMap id ≠ [])
    (cats : List (List (Option V))) (conts : List (List (Option ℚ))) :
    List.Forall₂ (fun o c => c = -1 ↔ o = none) col (encodeColumnOpt col)
    ∧ (encodeMixedOpt cats conts).2 = conts
    ∧ (∀ o ∈ fillNa_cont cont, o.isSome) := by
  refine ⟨?_, rfl, ?_⟩
  · unfold encodeColumnOpt
    refine forall₂_map_self _ _ (fun o => ?_) col
    cases o with
    | none => simp
    | some v =>
      simp only [reduceCtorEq, iff_false]
  · intro o ho
    unfold fillNa_cont at ho
    rw [if_neg hc] at ho
    rcases List.mem_map.1 ho with ⟨x, _, hx⟩
    rw [← hx]
    rfl

/-- Witness for the amended C3 at a concrete table. -/
theorem C3_encoding_amended_witness :
    ([some (1 : ℚ), none] : List (Option ℚ)).filterMap id ≠ []
    ∧ (List.Forall₂ (fun o c => c = -1 ↔ o = none)
          ([some (0 : ℤ), none] : List (Option ℤ))
          (encodeColumnOpt [some (0 : ℤ), none])
        ∧ (encodeMixedOpt (V := ℤ) [[some 0, none]] [[some 1, none]]).2 = [[some 1, none]]
        ∧ (∀ o ∈ fillNa_cont [some (1 : ℚ), none], o.isSome)) :=
  ⟨by decide,
   C3_encoding_amended [some (0 : ℤ), none] [some (1 : ℚ), none]
     (by decide) [[some 0, none]] [[some 1, none]]⟩

/-- Claim C5 (confirmed): for every synthetic row, the two distances
attached by `min_l2_distance` satisfy `s_r_l2_min_1 ≤ s_r_l2_min_2`
(the two smallest unweighted Euclidean distances to the real set,
swapped into order if needed), and the per-row ratio
`s_r_l2_min_1 / s_r_l2_min_2` lies in `[0, 1]` (in exact real
arithmetic, where `x / 0 = 0`; `np.partition(·, 1)` requires at least
two real rows). -/
theorem C5_min_l2_order_and_ratio (row : List ℚ) (realRows : List (List ℚ))
    (h2 : 2 ≤ realRows.length) :
    (min_l2_distance row realRows).1 ≤ (min_l2_distance row realRows).2
    ∧ 0 ≤ (min_l2_distance row realRows).1 / (min_l2_distance row realRows).2
    ∧ (min_l2_distance row realRows).1 / (min_l2_distance row realRows).2 ≤ 1 := by
  obtain ⟨h0, hle⟩ := min_l2_distance_spec row realRows h2
  refine ⟨hle, ?_, ?_⟩
  · rcases eq_or_lt_of_le (le_trans h0 hle) with hz | hpos
    · rw [← hz, div_zero]
    · exact div_nonneg h0 (le_of_lt hpos)
  · rcases eq_or_lt_of_le (le_trans h0 hle) with hz | hpos
    · rw [← hz, div_zero]
      exact zero_le_one
    · exact (div_le_one hpos).2 hle

/-- Witness for C5 with two concrete real rows. -/
theorem C5_min_l2_order_and_ratio_witness :
    2 ≤ ([[(0 : ℚ)], [1]] : List (List ℚ)).length
    ∧ ((min_l2_distance [0] [[(0 : ℚ)], [1]]).1 ≤ (min_l2_distance [0] [[(0 : ℚ)], [1]]).2
      ∧ 0 ≤ (min_l2_distance [0] [[(0 : ℚ)], [1]]).1 / (min_l2_distance [0] [[(0 : ℚ)], [1]]).2
      ∧ (min_l2_distance [0] [[(0 : ℚ)], [1]]).1 / (min_l2_distance [0] [[(0 : ℚ)], [1]]).2 ≤ 1) :=
  ⟨by decide, C5_min_l2_order_and_ratio [0] [[(0 : ℚ)], [1]] (by decide)⟩

/-- Claim C6 (confirmed): if the synthetic table is an exact row-for-row
copy of the real table (same rows, same encoding), Mean Distance to
Closest Record is `0` and Hitting Rate is `1` (with the nonnegative
default `thres_percent` and at least two real rows, as
`np.partition(·, 1)` requires). -/
theorem C6_exact_copy (realRows : List (List ℚ)) (tp : ℚ) (catIdx : ℕ → Bool)
    (h2 : 2 ≤ realRows.length) (htp : 0 ≤ tp) :
    mean_distance_closest_record (compute_distances_hits realRows realRows tp catIdx).1 = 0
    ∧ hitting_rate (compute_distances_hits realRows realRows tp catIdx).2 realRows.length
        = 1 := by
  have hne : realRows ≠ [] := by
    intro h
    rw [h] at h2
    simp at h2
  constructor
  · unfold mean_distance_closest_record
    simp only [compute_distances_hits]
    rw [List.map_map]
    have hz : ((realRows.map (Prod.fst ∘ fun g => min_l2_distance g realRows))).sum = 0 := by
      apply List.sum_eq_zero
      intro x hx
      rcases List.mem_map.1 hx with ⟨g, hg, rfl⟩
      exact min_l2_first_eq_zero hg h2
    rw [hz, zero_div]
  · unfold hitting_rate
    simp only [compute_distances_hits]
    rw [List.map_map]
    have hall : ∀ r ∈ realRows,
        ((fun s => if s.1 then (1 : ℝ) else 0) ∘ fun r =>
          min_dist_real_synth r realRows realRows (thresVec realRows tp catIdx)
            (entropyWeights realRows)) r = 1 := by
      intro r hr
      have hhit : hitAny r realRows (thresVec realRows tp catIdx) = true := by
        unfold hitAny
        rw [List.any_eq_true]
        exact ⟨r, hr, rowHit_self r _ (thresVec_nonneg realRows tp catIdx hne htp)⟩
      simp [min_dist_real_synth, hhit]
    have hsum : (realRows.map ((fun s => if s.1 then (1 : ℝ) else 0) ∘ fun r =>
          min_dist_real_synth r realRows realRows (thresVec realRows tp catIdx)
            (entropyWeights realRows))).sum = (realRows.length : ℝ) := by
      have := List.map_congr_left (f := (fun s => if s.1 then (1 : ℝ) else 0) ∘ fun r =>
          min_dist_real_synth r realRows realRows (thresVec realRows tp catIdx)
            (entropyWeights realRows)) (g := fun _ => (1 : ℝ)) hall
      rw [this, sum_map_one]
    rw [hsum]
    apply div_self
    have hpos : 0 < realRows.length := by omega
    exact_mod_cast Nat.pos_iff_ne_zero.1 hpos

/-- Witness for C6: real table with two rows, copied verbatim as the
synthetic table, default threshold `3/10`, first column categorical. -/
theorem C6_exact_copy_witness :
    2 ≤ ([[(0 : ℚ), 1], [2, 3]] : List (List ℚ)).length ∧ (0 : ℚ) ≤ 3 / 10
    ∧ (mean_distance_closest_record
        (compute_distances_hits [[(0 : ℚ), 1], [2, 3]] [[(0 : ℚ), 1], [2, 3]]
          (3 / 10) (fun j => j = 0)).1 = 0
      ∧ hitting_rate
          (compute_distances_hits [[(0 : ℚ), 1], [2, 3]] [[(0 : ℚ), 1], [2, 3]]
            (3 / 10) (fun j => j = 0)).2
          ([[(0 : ℚ), 1], [2, 3]] : List (List ℚ)).length = 1) :=
  ⟨by decide, by norm_num,
   C6_exact_copy [[(0 : ℚ), 1], [2, 3]] (3 / 10) (fun j => j = 0) (by decide) (by norm_num)⟩

/-- Claim C7 (confirmed): for every real/synthetic pair with a non-empty
synthetic table and at least two real rows (`np.partition(·, 1)`
requires two), Hitting Rate and Epsilon-Identifiability Risk lie in
`[0, 1]`; Hitting Rate equals the count of real rows whose hit flag is
true divided by the number of real rows, and Epsilon-Identifiability
Risk equals the count of real rows whose minimum weighted distance to
the synthetic set is strictly smaller than their second-smallest
weighted distance to the real set, divided by the number of real rows. -/
theorem C7_rates_in_unit_interval (realRows genRows : List (List ℚ)) (tp : ℚ)
    (catIdx : ℕ → Bool) (h2 : 2 ≤ realRows.length) (_hg : genRows ≠ []) :
    0 ≤ hitting_rate (compute_distances_hits realRows genRows tp catIdx).2 realRows.length
    ∧ hitting_rate (compute_distances_hits realRows genRows tp catIdx).2 realRows.length ≤ 1
    ∧ hitting_rate (compute_distances_hits realRows genRows tp catIdx).2 realRows.length
        = (((compute_distances_hits realRows genRows tp catIdx).2.countP
            (fun s => s.1) : ℕ) : ℝ) / (realRows.length : ℝ)
    ∧ 0 ≤ epsilon_identifiability_risk
        (compute_distances_hits realRows genRows tp catIdx).2 realRows.length
    ∧ epsilon_identifiability_risk
        (compute_distances_hits realRows genRows tp catIdx).2 realRows.length ≤ 1
    ∧ epsilon_identifiability_risk
        (compute_distances_hits realRows genRows tp catIdx).2 realRows.length
        = (((compute_distances_hits realRows genRows tp catIdx).2.countP
            (fun s => decide (s.2.1 < s.2.2)) : ℕ) : ℝ) / (realRows.length : ℝ) := by
  set rs := (compute_distances_hits realRows genRows tp catIdx).2 with hrs
  have hlen : rs.length = realRows.length := by
    rw [hrs]
    simp [compute_distances_hits]
  have hn : (0 : ℝ) < (realRows.length : ℝ) := by
    have : 0 < realRows.length := by omega
    exact_mod_cast this
  have hhr : hitting_rate rs realRows.length
      = ((rs.countP (fun s => s.1) : ℕ) : ℝ) / (realRows.length : ℝ) := by
    unfold hitting_rate
    rw [sum_indicator_eq_countP]
  have her : epsilon_identifiability_risk rs realRows.length
      = ((rs.countP (fun s => decide (s.2.1 < s.2.2)) : ℕ) : ℝ) / (realRows.length : ℝ) := by
    unfold epsilon_identifiability_risk
    have hmap : rs.map (fun s => if s.2.1 - s.2.2 < 0 then (1 : ℝ) else 0)
        = rs.map (fun s => if decide (s.2.1 < s.2.2) = true then (1 : ℝ) else 0) :=
      List.map_congr_left (fun s _ =>
        if_congr (sub_neg.trans decide_eq_true_iff.symm) rfl rfl)
    rw [hmap, sum_indicator_eq_countP]
  have hcount1 : ((rs.countP (fun s => s.1) : ℕ) : ℝ) ≤ (realRows.length : ℝ) := by
    have := List.countP_le_length (p := fun s => s.1) (l := rs)
    rw [hlen] at this
    exact_mod_cast this
  have hcount2 : ((rs.countP (fun s => decide (s.2.1 < s.2.2)) : ℕ) : ℝ)
      ≤ (realRows.length : ℝ) := by
    have := List.countP_le_length (p := fun s => decide (s.2.1 < s.2.2)) (l := rs)
    rw [hlen] at this
    exact_mod_cast this
  refine ⟨?_, ?_, hhr, ?_, ?_, her⟩
  · rw [hhr]
    exact div_nonneg (Nat.cast_nonneg _) (le_of_lt hn)
  · rw [hhr]
    rw [div_le_one hn]
    exact hcount1
  · rw [her]
    exact div_nonneg (Nat.cast_nonneg _) (le_of_lt hn)
  · rw [her]
    rw [div_le_one hn]
    exact hcount2

/-- Witness for C7: two real rows, one synthetic row. -/
theorem C7_rates_in_unit_interval_witness :
    2 ≤ ([[(0 : ℚ)], [1]] : List (List ℚ)).length
    ∧ ([[(2 : ℚ)]] : List (List ℚ)) ≠ []
    ∧ (0 ≤ hitting_rate
          (compute_distances_hits [[(0 : ℚ)], [1]] [[(2 : ℚ)]] (3 / 10) (fun _ => false)).2
          ([[(0 : ℚ)], [1]] : List (List ℚ)).length
      ∧ hitting_rate
          (compute_distances_hits [[(0 : ℚ)], [1]] [[(2 : ℚ)]] (3 / 10) (fun _ => false)).2
          ([[(0 : ℚ)], [1]] : List (List ℚ)).length ≤ 1
      ∧ hitting_rate
          (compute_distances_hits [[(0 : ℚ)], [1]] [[(2 : ℚ)]] (3 / 10) (fun _ => false)).2
          ([[(0 : ℚ)], [1]] : List (List ℚ)).length
        = (((compute_distances_hits [[(0 : ℚ)], [1]] [[(2 : ℚ)]] (3 / 10)
              (fun _ => false)).2.countP (fun s => s.1) : ℕ) : ℝ)
          / (([[(0 : ℚ)], [1]] : List (List ℚ)).length : ℝ)
      ∧ 0 ≤ epsilon_identifiability_risk
          (compute_distances_hits [[(0 : ℚ)], [1]] [[(2 : ℚ)]] (3 / 10) (fun _ => false)).2
          ([[(0 : ℚ)], [1]] : List (List ℚ)).length
      ∧ epsilon_identifiability_risk
          (compute_distances_hits [[(0 : ℚ)], [1]] [[(2 : ℚ)]] (3 / 10) (fun _ => false)).2
          ([[(0 : ℚ)], [1]] : List (List ℚ)).length ≤ 1
      ∧ epsilon_identifiability_risk
          (compute_distances_hits [[(0 : ℚ)], [1]] [[(2 : ℚ)]] (3 / 10) (fun _ => false)).2
          ([[(0 : ℚ)], [1]] : List (List ℚ)).length
        = (((compute_distances_hits [[(0 : ℚ)], [1]] [[(2 : ℚ)]] (3 / 10)
              (fun _ => false)).2.countP
                (fun s => decide (s.2.1 < s.2.2)) : ℕ) : ℝ)
          / (([[(0 : ℚ)], [1]] : List (List ℚ)).length : ℝ)) :=
  ⟨by decide, by decide,
   C7_rates_in_unit_interval [[(0 : ℚ)], [1]] [[(2 : ℚ)]] (3 / 10) (fun _ => false)
     (by decide) (by decide)⟩

/-- Claim C10 (confirmed): for a column of the encoded real table whose
values are all equal after rounding to integers, the entropy weight is
`0` (`scipy.stats.entropy` of a single-count distribution), and the
weighted-distance computation of the risk pass is not guarded against
the zero weight: any row pair differing in that column has infinite
weighted (squared) distance — modelled in `ENNReal`, matching IEEE
`x / 0.0 = inf` for `x ≠ 0` — and so does, in particular, the minimum
weighted distance to a synthetic set all of whose rows differ there. -/
theorem C10_zero_entropy_weight_unguarded (rows : List (List ℚ)) (j : ℕ) (v : ℤ)
    (r g : List ℚ) (hrows : rows ≠ []) (hj : j < ncols rows)
    (hconst : ∀ x ∈ colOf rows j, npRound x = v)
    (hjr : j < r.length) (hjg : j < g.length)
    (hne : r.getD j 0 ≠ g.getD j 0) :
    (entropyWeights rows).getD j 1 = 0
    ∧ wSqDistE r g (entropyWeights rows) = ⊤
    ∧ (∀ gens : List (List ℚ), gens ≠ [] →
        (∀ g2 ∈ gens, j < g2.length ∧ r.getD j 0 ≠ g2.getD j 0) →
        listMin ⊤ (gens.map (fun g2 => wSqDistE r g2 (entropyWeights rows))) = ⊤) := by
  have hcol : colOf rows j ≠ [] := fun hc => hrows (List.map_eq_nil_iff.1 hc)
  have hw0 : (entropyWeights rows).getD j 1 = 0 := by
    rw [entropyWeights_getD rows j hj]
    exact column_entropy_const _ v hconst hcol
  have hjw : j < (entropyWeights rows).length := by
    simpa [entropyWeights] using hj
  refine ⟨hw0, wSqDistE_eq_top r g _ j hjr hjg hjw hne hw0, ?_⟩
  intro gens hgens hall
  have htop : ∀ x ∈ gens.map (fun g2 => wSqDistE r g2 (entropyWeights rows)), x = ⊤ := by
    intro x hx
    rcases List.mem_map.1 hx with ⟨g2, hg2, rfl⟩
    exact wSqDistE_eq_top r g2 _ j hjr (hall g2 hg2).1 hjw (hall g2 hg2).2 hw0
  have hmne : gens.map (fun g2 => wSqDistE r g2 (entropyWeights rows)) ≠ [] := by
    intro habs
    exact hgens (List.map_eq_nil_iff.1 habs)
  exact htop _ (listMin_mem ⊤ _ hmne)

/-- Witness for C10: real table `[[1, 5], [1, 7]]` whose first column is
the constant `1`, and rows differing in that column. -/
theorem C10_zero_entropy_weight_unguarded_witness :
    ([[(1 : ℚ), 5], [1, 7]] : List (List ℚ)) ≠ []
    ∧ 0 < ncols [[(1 : ℚ), 5], [1, 7]]
    ∧ (∀ x ∈ colOf [[(1 : ℚ), 5], [1, 7]] 0, npRound x = 1)
    ∧ 0 < ([(1 : ℚ), 5] : List ℚ).length ∧ 0 < ([(3 : ℚ), 7] : List ℚ).length
    ∧ ([(1 : ℚ), 5] : List ℚ).getD 0 0 ≠ ([(3 : ℚ), 7] : List ℚ).getD 0 0
    ∧ ((entropyWeights [[(1 : ℚ), 5], [1, 7]]).getD 0 1 = 0
      ∧ wSqDistE [(1 : ℚ), 5] [(3 : ℚ), 7] (entropyWeights [[(1 : ℚ), 5], [1, 7]]) = ⊤
      ∧ (∀ gens : List (List ℚ), gens ≠ [] →
          (∀ g2 ∈ gens, 0 < g2.length
            ∧ ([(1 : ℚ), 5] : List ℚ).getD 0 0 ≠ g2.getD 0 0) →
          listMin ⊤ (gens.map (fun g2 =>
            wSqDistE [(1 : ℚ), 5] g2 (entropyWeights [[(1 : ℚ), 5], [1, 7]]))) = ⊤)) :=
  ⟨by decide, by decide,
   (by
     intro x hx
     simp [colOf] at hx
     subst hx
     norm_num [npRound]),
   by decide, by decide, by decide,
   C10_zero_entropy_weight_unguarded [[(1 : ℚ), 5], [1, 7]] 0 1 [(1 : ℚ), 5] [(3 : ℚ), 7]
     (by decide) (by decide)
     (by
       intro x hx
       simp [colOf] at hx
       subst hx
       norm_num [npRound])
     (by decide) (by decide) (by decide)⟩

/-- Claim C8 (confirmed): `ratio_mat` with zero categorical columns or
zero continuous columns returns a single-element zero matrix (it never
reaches the pairwise loop, hence never raises); otherwise each entry for
a (categorical, continuous) column pair equals the correlation ratio
`η² = between-group variance / total variance` with groups given by the
categorical column's distinct values (columns of one frame have equal,
positive length). -/
theorem C8_ratio_mat_degenerate_and_eta {K : Type} [DecidableEq K]
    (conts : List (List ℚ)) (cats : List (List K))
    (hcats : cats ≠ []) (hconts : conts ≠ [])
    (hrect : ∀ cont ∈ conts, cont ≠ [] ∧ ∀ cat ∈ cats, cat.length = cont.length) :
    ratio_mat ([] : List (List ℚ)) cats = [[0]]
    ∧ ratio_mat conts ([] : List (List K)) = [[0]]
    ∧ ratio_mat conts cats
        = conts.map (fun cont => cats.map (fun cat => specEtaSq cat cont)) := by
  refine ⟨by simp [ratio_mat], by simp [ratio_mat], ?_⟩
  unfold ratio_mat
  rw [if_neg (by push_neg; exact ⟨hcats, hconts⟩)]
  apply List.map_congr_left
  intro cont hcont
  apply List.map_congr_left
  intro cat hcat
  exact correlation_ratio_eq_spec cat cont ((hrect cont hcont).2 cat hcat)
    (hrect cont hcont).1

/-- Witness for C8: one binary column against one continuous column of
four rows. -/
theorem C8_ratio_mat_degenerate_and_eta_witness :
    ([[(0 : ℤ), 0, 1, 1]] : List (List ℤ)) ≠ []
    ∧ ([[(1 : ℚ), 2, 3, 4]] : List (List ℚ)) ≠ []
    ∧ (∀ cont ∈ ([[(1 : ℚ), 2, 3, 4]] : List (List ℚ)), cont ≠ []
      ∧ ∀ cat ∈ ([[(0 : ℤ), 0, 1, 1]] : List (List ℤ)), cat.length = cont.length)
    ∧ (ratio_mat ([] : List (List ℚ)) ([[(0 : ℤ), 0, 1, 1]] : List (List ℤ)) = [[0]]
      ∧ ratio_mat ([[(1 : ℚ), 2, 3, 4]] : List (List ℚ)) ([] : List (List ℤ)) = [[0]]
      ∧ ratio_mat [[(1 : ℚ), 2, 3, 4]] ([[(0 : ℤ), 0, 1, 1]] : List (List ℤ))
          = ([[(1 : ℚ), 2, 3, 4]] : List (List ℚ)).map (fun cont =>
              ([[(0 : ℤ), 0, 1, 1]] : List (List ℤ)).map (fun cat => specEtaSq cat cont))) :=
  ⟨by decide, by decide, by decide,
   C8_ratio_mat_degenerate_and_eta [[(1 : ℚ), 2, 3, 4]] [[(0 : ℤ), 0, 1, 1]]
     (by decide) (by decide) (by decide)⟩

/-- Claim C4 (code bug): `jensen_shannon_distance` does not compute the
Jensen-Shannon distance between value-count distributions.  At the
failing input — real column codes `[0, 1]`, synthetic column codes
`[1, 0]`, shared codebook `[0, 1]` — both columns have identical value
counts, so the claimed metric is `0`; the code instead normalises the
raw code sequences (row-order dependent) and returns `sqrt(ln 2)`,
which is nonzero. -/
theorem C4_js_raw_columns_bug :
    jensen_shannon_distance [0, 1] [1, 0] = Real.sqrt (Real.log 2)
    ∧ specJensenShannonCounts [0, 1] [1, 0] [0, 1] = 0
    ∧ jensen_shannon_distance [0, 1] [1, 0]
        ≠ specJensenShannonCounts [0, 1] [1, 0] [0, 1] := by
  have h1 : jensen_shannon_distance [0, 1] [1, 0] = Real.sqrt (Real.log 2) := by
    unfold jensen_shannon_distance jensenshannon
    simp only [List.sum_cons, List.sum_nil, List.map_cons, List.map_nil,
      List.zipWith_cons_cons, List.zipWith_nil_right, List.zipWith_nil_left]
    norm_num [relEntr]
  have h2 : specJensenShannonCounts [0, 1] [1, 0] [0, 1] = 0 := by
    unfold specJensenShannonCounts jensenshannon
    simp only [List.count_cons, List.count_nil, List.sum_cons, List.sum_nil,
      List.map_cons, List.map_nil, List.zipWith_cons_cons, List.zipWith_nil_right,
      List.zipWith_nil_left]
    norm_num [relEntr]
  refine ⟨h1, h2, ?_⟩
  rw [h1, h2, ne_eq, Real.sqrt_eq_zero']
  push_neg
  exact Real.log_pos (by norm_num)

/-- Claim C9 (confirmed): every metric computation — the correlation
norms, the Pearson-difference matrix, the distances/hits pass, the
Jensen-Shannon distances and the Wasserstein distances — returns the
container state unchanged: none of these methods assigns to a container
field, and every in-place frame operation they perform acts on freshly
built copies (`encode_categories` copies its frame, the `fillNa_*`
imputations run on frames constructed inside `compute_correlations`,
and the dask frames are built from the fresh encoded data).  Only the
codec initialization `compute_categories_op` writes the container
(its codebook field), once, before any metric runs. -/
theorem C9_metrics_preserve_container {V : Type} [LinearOrder V]
    (s : DState V) (tp : ℚ) :
    (get_correlations s).1 = s
    ∧ (get_pearson_correlation s).1 = s
    ∧ (compute_distances_hits_op s tp).1 = s
    ∧ (jensen_shannon_distance_op s).1 = s
    ∧ (wasserstein_distance_op s).1 = s :=
  ⟨rfl, rfl, rfl, rfl, rfl⟩

end Gentab
